import Mathlib

/-!
Shallow embedding of the particle-swarm subsystem of `src/interface/swarm.cpp`
(`parthenon::Swarm`): the particle pool (mask / free list / counters), the
attribute store (integer and real particle variables), compaction (`Defrag`),
lazy removal (`RemoveMarkedParticles`), pool growth (`setPoolMax`,
`AddEmptyParticles`) and the pack/unpack record layout of the boundary
exchange (`Send` / `Receive`).

Modelling conventions:
* `Real` (a C++ `double`) is modelled as `ℚ`; the wraparound and packing
  arithmetic of the source is exact arithmetic, so `ℚ` preserves it.
* machine `int` counters (`num_active_`, `max_active_index_`) are `Int`.
* Kokkos views / `ParArrayND` are `List`s indexed with `List.getD`
  (out-of-range reads yield the default, mirroring that the source never
  reads out of range on the states the theorems quantify over).
* the device-parallel `par_for` loops of the source touch pairwise-distinct
  indices, so they are embedded as sequential folds.
-/

namespace Swarm

/-- The two supported particle-variable kinds of `Metadata::Type()` plus the
"anything else" case that `Swarm::Add` rejects. -/
inductive MType where
  | tInteger : MType
  | tReal : MType
  | tOther : MType
deriving Repr, DecidableEq

/-- `ParticleVariable<Real>`: a labelled, pool-capacity-sized array of reals. -/
structure RVar where
  label : String
  data : List ℚ
deriving Repr, DecidableEq

/-- `ParticleVariable<int>`: a labelled, pool-capacity-sized array of ints. -/
structure IVar where
  label : String
  data : List Int
deriving Repr, DecidableEq

/-- The state of one `Swarm`: pool bookkeeping (`mask_`,
`marked_for_removal_`, `free_indices_`, `num_active_`, `max_active_index_`,
`nmax_pool_`) and the attribute store (`realVector_`/`intVector_` plus the
key sets of `realMap_`/`intMap_`). -/
structure State where
  nmax_pool : Nat
  mask : List Bool
  marked_for_removal : List Bool
  free_indices : List Nat
  num_active : Int
  max_active_index : Int
  realVector : List RVar
  intVector : List IVar
  realMapKeys : List String
  intMapKeys : List String
deriving Repr, DecidableEq

/-- The list of active (masked) slot indices of a mask array. -/
def actives (mask : List Bool) : List Nat :=
  (List.range mask.length).filter (fun i => mask.getD i false)

/-- Errors raised by `Swarm::Add` (`std::invalid_argument`). -/
inductive AddError where
  | duplicateLabel : AddError
  | invalidType : AddError
deriving Repr, DecidableEq

/-- `Swarm::Add(label, metadata)`: duplicate labels (across both kinds) are
rejected first; then the variable is appended to the vector of its kind and
entered in that kind's map.  Fresh arrays are capacity-sized (uninitialised
storage is modelled as zero). -/
def add (s : State) (label : String) (t : MType) : Except AddError State :=
  if s.intMapKeys.contains label || s.realMapKeys.contains label then
    .error .duplicateLabel
  else
    match t with
    | .tInteger =>
        .ok { s with
              intVector := s.intVector ++ [⟨label, List.replicate s.nmax_pool 0⟩],
              intMapKeys := s.intMapKeys ++ [label] }
    | .tReal =>
        .ok { s with
              realVector := s.realVector ++ [⟨label, List.replicate s.nmax_pool 0⟩],
              realMapKeys := s.realMapKeys ++ [label] }
    | .tOther => .error .invalidType

/-- `Swarm::Swarm(label, metadata, nmax_pool_in)`: all slots unmasked and
unmarked, every index on the free list in ascending order,
`num_active_ = 0`, `max_active_index_ = 0`, and the three `Real` attributes
`"x"`, `"y"`, `"z"` enrolled via `Add`. -/
def init (nmax_pool : Nat) : State :=
  let s0 : State :=
    { nmax_pool := nmax_pool
      mask := List.replicate nmax_pool false
      marked_for_removal := List.replicate nmax_pool false
      free_indices := List.range nmax_pool
      num_active := 0
      max_active_index := 0
      realVector := []
      intVector := []
      realMapKeys := []
      intMapKeys := [] }
  let s1 := ((add s0 "x" .tReal).toOption).getD s0
  let s2 := ((add s1 "y" .tReal).toOption).getD s1
  ((add s2 "z" .tReal).toOption).getD s2

/-- `vector::operator[](idx) = std::move(vector.back()); vector.pop_back()`:
the swap-with-last-then-pop removal used by `Swarm::Remove` (for a
singleton vector only the pop happens). -/
def removeAtSwap {α : Type} (d : α) (v : List α) (idx : Nat) : List α :=
  if 1 < v.length then (v.set idx (v.getLastD d)).dropLast else v.dropLast

/-- Error raised by `Swarm::Remove` when the label is in neither namespace. -/
inductive RemoveError where
  | notFound : RemoveError
deriving Repr, DecidableEq

/-- `Swarm::Remove(label)`, with the source's exact control flow: the first
block removes from `intVector_` when the label is an integer variable, but
the flag `found` stays `true`, so the second block then also removes the
entry at the *integer* index from `realVector_`. -/
def remove (s : State) (label : String) : Except RemoveError State :=
  let intIdx := s.intVector.findIdx (fun v => v.label == label)
  let found := intIdx < s.intVector.length
  let s1 :=
    if found then
      { s with intVector := removeAtSwap ⟨"", []⟩ s.intVector intIdx,
               intMapKeys := s.intMapKeys.erase label }
    else s
  let realIdx :=
    if found then intIdx else s.realVector.findIdx (fun v => v.label == label)
  let found2 :=
    if found then true else realIdx < s.realVector.length
  let s2 :=
    if found2 then
      { s1 with realVector := removeAtSwap ⟨"", []⟩ s1.realVector realIdx,
                realMapKeys := s1.realMapKeys.erase label }
    else s1
  if found2 then .ok s2 else .error .notFound

/-- Modelled from the spec: `SwarmDeviceContext::MarkParticleForRemoval`
(declared in swarm.hpp, not under src/) realises §4.1 `MarkForRemoval(idx)`:
it "sets removal flag on an active slot; does not free it immediately",
i.e. `marked_for_removal_(idx) = true`. -/
def markForRemoval (s : State) (i : Nat) : State :=
  { s with marked_for_removal := s.marked_for_removal.set i true }

/-- One iteration of the descending loop of `Swarm::RemoveMarkedParticles`
at slot `n`: an active, marked slot is unmasked, pushed on the front of the
free list, `num_active_` decremented, `max_active_index_` decremented when
`n` equals the *current* `max_active_index_`, and its mark cleared. -/
def reapStep (s : State) (n : Nat) : State :=
  if s.mask.getD n false then
    if s.marked_for_removal.getD n false then
      { s with
        mask := s.mask.set n false,
        marked_for_removal := s.marked_for_removal.set n false,
        free_indices := n :: s.free_indices,
        num_active := s.num_active - 1,
        max_active_index :=
          if (n : Int) = s.max_active_index then s.max_active_index - 1
          else s.max_active_index }
    else s
  else s

/-- The descending loop of `Swarm::RemoveMarkedParticles`: `reapGo s k`
processes slots `k-1, k-2, …, 0`. -/
def reapGo : State → Nat → State
  | s, 0 => s
  | s, k + 1 => reapGo (reapStep s k) k

/-- `Swarm::RemoveMarkedParticles()`: a single descending pass from the
entry value of `max_active_index_` down to 0. -/
def removeMarkedParticles (s : State) : State :=
  reapGo s (s.max_active_index + 1).toNat

/-- `Swarm::setPoolMax(nmax_pool)`: requires a strictly larger pool
(`PARTHENON_REQUIRE`), pushes the new indices onto the back of the free
list, extends mask and removal flags with inactive entries, and reallocates
every attribute array, copying the first `nmax_pool_` entries
(uninitialised fresh storage is modelled as zero). -/
def setPoolMax (s : State) (nmax : Nat) : Option State :=
  if nmax ≤ s.nmax_pool then none
  else
    some { s with
           nmax_pool := nmax,
           free_indices :=
             s.free_indices ++ (List.range (nmax - s.nmax_pool)).map (· + s.nmax_pool),
           mask := s.mask ++ List.replicate (nmax - s.nmax_pool) false,
           marked_for_removal :=
             s.marked_for_removal ++ List.replicate (nmax - s.nmax_pool) false,
           realVector := s.realVector.map
             (fun v => ⟨v.label, v.data.take s.nmax_pool ++
                         List.replicate (nmax - s.nmax_pool) 0⟩),
           intVector := s.intVector.map
             (fun v => ⟨v.label, v.data.take s.nmax_pool ++
                         List.replicate (nmax - s.nmax_pool) 0⟩) }

/-- Modelled from the spec: `Swarm::increasePoolMax` (declared in
swarm.hpp, not under src/) is the growth step of the
`while (free_indices_.size() < num_to_add)` loop of `AddEmptyParticles`.
Per §8 a single growth must satisfy a request of one more slot than
currently free; we model it as doubling the capacity through `setPoolMax`,
which has that property. -/
def increasePoolMax (s : State) : Option State :=
  setPoolMax s (2 * s.nmax_pool)

/-- The `while (free_indices_.size() < num_to_add) increasePoolMax();`
loop of `Swarm::AddEmptyParticles`, fuel-bounded (the fuel only cuts off
divergence that the C++ loop would also exhibit, e.g. growing a
zero-capacity pool); returns the grown state and the number of growths. -/
def growToFit : State → Int → Nat → Option (State × Nat)
  | s, num, 0 =>
      if (s.free_indices.length : Int) < num then none else some (s, 0)
  | s, num, fuel + 1 =>
      if (s.free_indices.length : Int) < num then
        match increasePoolMax s with
        | none => none
        | some s1 =>
            match growToFit s1 num fuel with
            | none => none
            | some (s2, g) => some (s2, g + 1)
      else some (s, 0)

/-- `Swarm::AddEmptyParticles(num_to_add, new_indices)`: requires
`num_to_add > 0` (`PARTHENON_REQUIRE`), grows until enough slots are free,
then activates the first `num_to_add` free indices, raising
`max_active_index_` to each taken index in turn and adding `num_to_add` to
`num_active_`.  Returns the new state, the taken indices (`new_indices`)
and the number of growths performed. -/
def addEmptyParticlesG (s : State) (num : Int) :
    Option (State × List Nat × Nat) :=
  if num ≤ 0 then none
  else
    match growToFit s num num.toNat with
    | none => none
    | some (s1, g) =>
        let taken := s1.free_indices.take num.toNat
        some ({ s1 with
                mask := taken.foldl (fun m i => m.set i true) s1.mask,
                free_indices := s1.free_indices.drop num.toNat,
                max_active_index :=
                  taken.foldl (fun mx i => max mx (i : Int)) s1.max_active_index,
                num_active := s1.num_active + num }, taken, g)

/-- `Swarm::AddEmptyParticles`, state part only. -/
def addEmptyParticles (s : State) (num : Int) : Option State :=
  (addEmptyParticlesG s num).map (fun p => p.1)

/-- The `while (mask_h(index) == false) index--;` search of `Swarm::Defrag`,
restricted to non-negative indices (on the states `Defrag` runs on, the
C++ loop never leaves the array). -/
def findActiveDownNat (mask : List Bool) : Nat → Option Nat
  | 0 => if mask.getD 0 false then some 0 else none
  | n + 1 => if mask.getD (n + 1) false then some (n + 1) else findActiveDownNat mask n

/-- `findActiveDown` on a machine-int index. -/
def findActiveDown (mask : List Bool) (index : Int) : Option Nat :=
  if index < 0 then none else findActiveDownNat mask index.toNat

/-- The sequential move-collection loop of `Swarm::Defrag`: starting from
`max_active_index_`, walk active slots downwards; stop at the first one
below `num_active_`; otherwise pop the *front* of the free list as the
destination.  Returns the `(from, to)` pairs in collection order and the
remaining free list. -/
def defragCollect (mask : List Bool) (numActive : Int) :
    Nat → Int → List Nat → List (Nat × Nat) × List Nat
  | 0, _, free => ([], free)
  | fuel + 1, index, free =>
      match findActiveDown mask index with
      | none => ([], free)
      | some i =>
          if (i : Int) < numActive then ([], free)
          else
            match free with
            | [] => ([], free)
            | t :: rest =>
                let p := defragCollect mask numActive fuel ((i : Int) - 1) rest
                ((i, t) :: p.1, p.2)

/-- The `Swarm::DefragMask` kernel: for every pair,
`mask(to) = mask(from); mask(from) = false` (the pairs touch pairwise
distinct slots, so the parallel loop equals this sequential fold). -/
def applyMovesMask (pairs : List (Nat × Nat)) (mask : List Bool) : List Bool :=
  pairs.foldl (fun m p => (m.set p.2 (m.getD p.1 false)).set p.1 false) mask

/-- The `Swarm::DefragVariables` kernel on one attribute array:
`v(to) = v(from)` for every pair. -/
def applyMovesData {α : Type} (d : α) (pairs : List (Nat × Nat)) (v : List α) :
    List α :=
  pairs.foldl (fun m p => m.set p.2 (m.getD p.1 d)) v

/-- `std::list<int>::merge` of two (sorted) lists, as used on the free
list at the end of `Swarm::Defrag`. -/
def mergeAsc : List Nat → List Nat → List Nat
  | [], b => b
  | a, [] => a
  | x :: xs, y :: ys =>
      if x ≤ y then x :: mergeAsc xs (y :: ys) else y :: mergeAsc (x :: xs) ys

/-- `std::list<int>::sort`, ascending. -/
def sortAsc (l : List Nat) : List Nat := List.insertionSort (· ≤ ·) l

/-- `Swarm::Defrag()`: no-op when nothing is active; otherwise collect the
relocation pairs sequentially (popping destinations off the *front* of the
free list), sort the remaining free list and the vacated indices and merge
them, apply the relocations to the mask and every attribute array, and set
`max_active_index_ = num_active_ - 1`. -/
def defrag (s : State) : State :=
  if s.num_active = 0 then s
  else
    let num_free : Int := s.max_active_index + 1 - s.num_active
    let num_to_move : Int := min num_free s.num_active
    let pr := defragCollect s.mask s.num_active num_to_move.toNat
                s.max_active_index s.free_indices
    let newFree := pr.1.map (fun p => p.1)
    { s with
      mask := applyMovesMask pr.1 s.mask,
      free_indices := mergeAsc (sortAsc pr.2) (sortAsc newFree),
      realVector := s.realVector.map
        (fun v => ⟨v.label, applyMovesData 0 pr.1 v.data⟩),
      intVector := s.intVector.map
        (fun v => ⟨v.label, applyMovesData 0 pr.1 v.data⟩),
      max_active_index := s.num_active - 1 }

/-- Modelled from the spec: `Swarm::GetParticleDataSize` is declared in
swarm.hpp (not under src/); per the wire contract the record is the
concatenation of all real attributes then all integer attributes, so its
size in `Real` entries is `#reals + #ints`. -/
def particleDataSize (s : State) : Nat :=
  s.realVector.length + s.intVector.length

/-- The record the `Pack Buffers` kernel of `Swarm::Send` writes for one
particle `sidx`: every real attribute in registration order, then every
integer attribute cast onto the `Real` wire type.  (The kernel reads the
attribute values before the in-place periodic correction of the same
iteration mutates them, so the raw values are packed.) -/
def packRecord (s : State) (sidx : Nat) : List ℚ :=
  s.realVector.map (fun v => v.data.getD sidx 0) ++
    s.intVector.map (fun v => ((v.data.getD sidx 0 : Int) : ℚ))

/-- The send buffer of one channel: records at
`buffer_index = n * particle_size`, packed contiguously in the order the
particle indices were tallied. -/
def sendPackBuffer (s : State) (idxs : List Nat) : List ℚ :=
  (idxs.map (packRecord s)).flatten

/-- `static_cast<int>` applied to a wire `Real`: truncation. -/
def ratTrunc (q : ℚ) : Int := q.num / (q.den : Int)

/-- The `Unpack buffers` kernel of `Swarm::Receive`, real field `i` of
record `bid`: `bdvar.recv[nid](bid * particle_size + i)`. -/
def recvRealField (buf : List ℚ) (ps bid i : Nat) : ℚ :=
  buf.getD (bid * ps + i) 0

/-- The `Unpack buffers` kernel of `Swarm::Receive`, integer field `i` of
record `bid`: the source reads
`bdvar.recv[nid]((real_vars_size + bid) * particle_size + i)`. -/
def recvIntField (buf : List ℚ) (ps rvars bid i : Nat) : Int :=
  ratTrunc (buf.getD ((rvars + bid) * ps + i) 0)

/-- The per-axis periodic correction applied by `Swarm::Receive` (and, to
the soon-removed local copy, by `Swarm::Send`): first the underflow branch,
then the overflow branch on the updated value. -/
def wrapCoord (gmin gmax x : ℚ) : ℚ :=
  let x1 := if x < gmin then gmax - (gmin - x) else x
  if x1 > gmax then gmin + (x1 - gmax) else x1

/-- The coordinate of axis `axis` (0 = `"x"`, 1 = `"y"`, 2 = `"z"`, the
`rmap` positions fixed by the constructor's registration order) that a
received record ends up with: unpack the real field, then apply the
periodic correction for that axis's global bounds. -/
def receivedCoord (gmin gmax : ℚ) (buf : List ℚ) (ps bid axis : Nat) : ℚ :=
  wrapCoord gmin gmax (recvRealField buf ps bid axis)

/-- `BoundaryStatus` of a channel. -/
inductive BStatus where
  | waiting : BStatus
  | arrived : BStatus
  | completed : BStatus
deriving Repr, DecidableEq

/-- The final loop of `Swarm::Receive`: every `arrived` channel is set to
`completed`; `all_boundaries_received` starts `true` and is cleared by
every channel still `waiting`. -/
def receiveUpdateFlags : List BStatus → List BStatus × Bool
  | [] => ([], true)
  | f :: rest =>
      let p := receiveUpdateFlags rest
      match f with
      | .arrived => (.completed :: p.1, p.2)
      | .waiting => (.waiting :: p.1, false)
      | .completed => (.completed :: p.1, p.2)

/-- The real-attribute label list of a state (the registration order that
fixes the leading fields of the wire record). -/
def realLabels (s : State) : List String := s.realVector.map (fun v => v.label)

/-- The integer-attribute label list of a state. -/
def intLabels (s : State) : List String := s.intVector.map (fun v => v.label)

/-- A concrete swarm for exercising the exchange wire format: the three
constructor reals plus one integer attribute `"w"`, five active particles
(particle 3 has `x = 40`, particle 0 has `w = 7`; all coordinates lie
inside any domain containing `[0, 50]`, so no periodic correction fires). -/
def exchangeTestState : State :=
  { nmax_pool := 5
    mask := List.replicate 5 true
    marked_for_removal := List.replicate 5 false
    free_indices := []
    num_active := 5
    max_active_index := 4
    realVector := [⟨"x", [1, 2, 3, 40, 5]⟩, ⟨"y", [21, 22, 23, 24, 25]⟩,
                   ⟨"z", [31, 32, 33, 34, 35]⟩]
    intVector := [⟨"w", [7, 8, 9, 10, 11]⟩]
    realMapKeys := ["x", "y", "z"]
    intMapKeys := ["w"] }

/-- A swarm holding a single active particle at position `(xv, yv, zv)`,
as it stands right before `Swarm::Send` packs it for a neighbor. -/
def oneParticleState (xv yv zv : ℚ) : State :=
  { nmax_pool := 1
    mask := [true]
    marked_for_removal := [false]
    free_indices := []
    num_active := 1
    max_active_index := 0
    realVector := [⟨"x", [xv]⟩, ⟨"y", [yv]⟩, ⟨"z", [zv]⟩]
    intVector := []
    realMapKeys := ["x", "y", "z"]
    intMapKeys := [] }

/-- The states reachable through the public pool operations (construction,
attribute registration/removal, slot allocation, mark + reap, compaction,
explicit growth). -/
inductive Reachable : State → Prop where
  | ctor : ∀ n, Reachable (init n)
  | addEmpty : ∀ {s s' : State} (num : Int),
      Reachable s → addEmptyParticles s num = some s' → Reachable s'
  | mark : ∀ {s : State} (i : Nat), Reachable s → Reachable (markForRemoval s i)
  | reap : ∀ {s : State}, Reachable s → Reachable (removeMarkedParticles s)
  | compact : ∀ {s : State}, Reachable s → Reachable (defrag s)
  | grow : ∀ {s s' : State} (n : Nat),
      Reachable s → setPoolMax s n = some s' → Reachable s'
  | addAttr : ∀ {s s' : State} (label : String) (t : MType),
      Reachable s → add s label t = .ok s' → Reachable s'
  | removeAttr : ∀ {s s' : State} (label : String),
      Reachable s → remove s label = .ok s' → Reachable s'

/-- The pool bookkeeping invariant: the mask is capacity-sized and the free
list together with the active indices is a permutation of `[0, capacity)`
(hence disjoint, covering, and complementary in size). -/
def PoolInv (s : State) : Prop :=
  s.mask.length = s.nmax_pool ∧
    (s.free_indices ++ actives s.mask).Perm (List.range s.nmax_pool)

/-- C10: every freshly constructed swarm already holds the three `Real`
attributes `"x"`, `"y"`, `"z"` (so the record layout starts with these
three real fields), and a subsequent `Add` with any of these labels, for
every metadata kind, fails with the duplicate-label error. -/
theorem init_has_xyz_and_add_duplicates (n : Nat) (label : String) (t : MType)
    (h : label = "x" ∨ label = "y" ∨ label = "z") :
    realLabels (init n) = ["x", "y", "z"] ∧
      add (init n) label t = .error .duplicateLabel := by
  constructor
  · rfl
  · rcases h with h | h | h <;> subst h <;> cases t <;> rfl

/-- Witness for `init_has_xyz_and_add_duplicates` at capacity 2, label
`"y"`, integer metadata. -/
theorem init_has_xyz_and_add_duplicates_witness :
    realLabels (init 2) = ["x", "y", "z"] ∧
      add (init 2) "y" .tInteger = .error .duplicateLabel :=
  init_has_xyz_and_add_duplicates 2 "y" .tInteger (Or.inr (Or.inl rfl))

/-- C5 (failing input): on a fresh swarm with one extra integer attribute
`"i"`, `Remove("i")` succeeds but also destroys the unrelated real
attribute `"x"`: the real-removal block of `Swarm::Remove` re-runs with
the integer index because `found` is still `true`. -/
theorem remove_int_label_also_removes_real :
    ∃ s1 s2 : State,
      add (init 2) "i" .tInteger = .ok s1 ∧
      remove s1 "i" = .ok s2 ∧
      "x" ∈ realLabels s1 ∧ "x" ≠ "i" ∧
      intLabels s2 = [] ∧
      realLabels s2 = ["z", "y"] ∧
      "x" ∉ realLabels s2 := by
  refine ⟨_, _, rfl, rfl, ?_, ?_, ?_, ?_, ?_⟩ <;> decide

/-- C4 (failing input): after `init 2`, `AddEmptyParticles(2)`, then
marking and reaping slot 0 and then slot 1, no slot is active but
`max_active_index_` is 0, not the −1 the claim (and the comment above
`Swarm::RemoveMarkedParticles`) requires; the constructor likewise starts
at 0 with nothing active. -/
theorem reap_leaves_stale_max_active_index :
    (let s1 := (addEmptyParticles (init 2) 2).getD (init 2)
     let s2 := removeMarkedParticles (markForRemoval s1 0)
     let s3 := removeMarkedParticles (markForRemoval s2 1)
     actives s3.mask = [] ∧ s3.num_active = 0 ∧ s3.max_active_index = 0) ∧
      actives (init 2).mask = [] ∧ (init 2).max_active_index = 0 := by
  constructor
  · refine ⟨?_, ?_, ?_⟩ <;> decide
  · exact ⟨by decide, by decide⟩

/-- C2 (failing input): capacity 8, allocate all 8 slots, then mark+reap
slots 1, 2 and 6 in that order (leaving the free list in pop order
`[6, 2, 1]`).  `Defrag` then moves slot 7 into free-list front 6, so the
active slots afterwards are `{0, 2, 3, 4, 6}` instead of `[0, 5)`: slot 6
stays active above the new `max_active_index_ = 4`. -/
theorem defrag_leaves_active_slot_above_boundary :
    (let t1 := (addEmptyParticles (init 8) 8).getD (init 8)
     let t2 := removeMarkedParticles (markForRemoval t1 1)
     let t3 := removeMarkedParticles (markForRemoval t2 2)
     let t4 := removeMarkedParticles (markForRemoval t3 6)
     let t5 := defrag t4
     t4.num_active = 5 ∧ t4.free_indices = [6, 2, 1] ∧
       t5.num_active = 5 ∧ t5.max_active_index = 4 ∧
       actives t5.mask = [0, 2, 3, 4, 6] ∧
       actives t5.mask ≠ List.range 5) := by
  refine ⟨?_, ?_, ?_, ?_, ?_, ?_⟩ <;> decide

/-- C1 (failing input): pack five particles (three reals `x,y,z` and one
integer attribute `w`) with `Send`'s kernel and unpack with `Receive`'s
kernel.  The reals land where the wire contract says (record `bid`, field
`i`, at `bid * particle_size + i`), but the integer field of record 0 is
read from `(real_vars_size + 0) * particle_size + 0 = 12`, i.e. from
record 3's `x` value 40, not the original `w = 7`. -/
theorem receive_reads_int_fields_at_wrong_offset :
    (let s := exchangeTestState
     let buf := sendPackBuffer s [0, 1, 2, 3, 4]
     let ps := particleDataSize s
     ps = 4 ∧
       recvRealField buf ps 0 0 = 1 ∧
       recvRealField buf ps 3 0 = 40 ∧
       recvRealField buf ps 0 1 = 21 ∧
       buf.getD (0 * ps + 3) 0 = 7 ∧
       recvIntField buf ps s.realVector.length 0 0 = 40 ∧
       recvIntField buf ps s.realVector.length 0 0 ≠ 7) := by
  refine ⟨?_, ?_, ?_, ?_, ?_, ?_, ?_⟩ <;> decide

/-- C7: a particle that left the periodic domain on the x axis by a tenth
of the domain width, packed by `Send` for a co-resident neighbor and run
through `Receive`'s unpack-plus-wraparound, arrives at
`xmax - 0.1*(xmax - xmin)`; symmetrically, overflow past `xmax` arrives at
`xmin + 0.1*(xmax - xmin)`, and the same correction is applied to the `y`
and `z` fields of the record. -/
theorem send_receive_wraps_periodic_coordinates (gmin gmax yv zv : ℚ)
    (h : gmin < gmax) :
    (receivedCoord gmin gmax
        (sendPackBuffer (oneParticleState (gmin - (gmax - gmin) / 10) yv zv) [0])
        (particleDataSize (oneParticleState (gmin - (gmax - gmin) / 10) yv zv))
        0 0 = gmax - (gmax - gmin) / 10) ∧
    (receivedCoord gmin gmax
        (sendPackBuffer (oneParticleState (gmax + (gmax - gmin) / 10) yv zv) [0])
        (particleDataSize (oneParticleState (gmax + (gmax - gmin) / 10) yv zv))
        0 0 = gmin + (gmax - gmin) / 10) ∧
    (receivedCoord gmin gmax
        (sendPackBuffer (oneParticleState yv (gmin - (gmax - gmin) / 10) zv) [0])
        (particleDataSize (oneParticleState yv (gmin - (gmax - gmin) / 10) zv))
        0 1 = gmax - (gmax - gmin) / 10) ∧
    (receivedCoord gmin gmax
        (sendPackBuffer (oneParticleState yv zv (gmax + (gmax - gmin) / 10)) [0])
        (particleDataSize (oneParticleState yv zv (gmax + (gmax - gmin) / 10)))
        0 2 = gmin + (gmax - gmin) / 10) := by
  have hd : 0 < (gmax - gmin) / 10 := by
    have : 0 < gmax - gmin := sub_pos.mpr h
    positivity
  have hunder :
      wrapCoord gmin gmax (gmin - (gmax - gmin) / 10) = gmax - (gmax - gmin) / 10 := by
    unfold wrapCoord
    rw [if_pos (show gmin - (gmax - gmin) / 10 < gmin by linarith)]
    rw [if_neg (show ¬gmax - (gmin - (gmin - (gmax - gmin) / 10)) > gmax by linarith)]
    ring
  have hover :
      wrapCoord gmin gmax (gmax + (gmax - gmin) / 10) = gmin + (gmax - gmin) / 10 := by
    unfold wrapCoord
    rw [if_neg (show ¬gmax + (gmax - gmin) / 10 < gmin by linarith)]
    rw [if_pos (show gmax + (gmax - gmin) / 10 > gmax by linarith)]
    ring
  refine ⟨?_, ?_, ?_, ?_⟩
  · simpa [receivedCoord, recvRealField, sendPackBuffer, packRecord,
      oneParticleState, particleDataSize] using hunder
  · simpa [receivedCoord, recvRealField, sendPackBuffer, packRecord,
      oneParticleState, particleDataSize] using hover
  · simpa [receivedCoord, recvRealField, sendPackBuffer, packRecord,
      oneParticleState, particleDataSize] using hunder
  · simpa [receivedCoord, recvRealField, sendPackBuffer, packRecord,
      oneParticleState, particleDataSize] using hover

/-- Witness for `send_receive_wraps_periodic_coordinates` on the unit
domain `[0, 1)`: a particle at `x = -1/10` arrives at `x = 9/10`. -/
theorem send_receive_wraps_periodic_coordinates_witness :
    receivedCoord 0 1 (sendPackBuffer (oneParticleState (0 - (1 - 0) / 10) 0 0) [0])
        (particleDataSize (oneParticleState (0 - (1 - 0) / 10) 0 0)) 0 0
      = 1 - (1 - 0) / 10 :=
  (send_receive_wraps_periodic_coordinates 0 1 0 0 (by norm_num)).1

/-- C6: the status sweep at the end of `Swarm::Receive` maps every
`arrived` channel to `completed`, and the return value is `true` exactly
when no channel is (still) `waiting`; in particular all-`waiting` input
(with at least one channel) returns `false`, and all-`arrived` input
returns `true` with every channel reading `completed`. -/
theorem receive_flag_sweep_spec (flags : List BStatus) :
    ((receiveUpdateFlags flags).1 =
        flags.map (fun f => if f = .arrived then .completed else f)) ∧
    ((receiveUpdateFlags flags).2 = true ↔ BStatus.waiting ∉ flags) ∧
    ((flags ≠ [] ∧ ∀ f ∈ flags, f = BStatus.waiting) →
        (receiveUpdateFlags flags).2 = false) ∧
    ((∀ f ∈ flags, f = BStatus.arrived) →
        (receiveUpdateFlags flags).2 = true ∧
          ∀ g ∈ (receiveUpdateFlags flags).1, g = BStatus.completed) := by
  have h1 : ∀ l : List BStatus, (receiveUpdateFlags l).1 =
      l.map (fun f => if f = .arrived then .completed else f) := by
    intro l
    induction l with
    | nil => rfl
    | cons f rest ih => cases f <;> simp [receiveUpdateFlags, ih]
  have h2 : ∀ l : List BStatus,
      ((receiveUpdateFlags l).2 = true ↔ BStatus.waiting ∉ l) := by
    intro l
    induction l with
    | nil => simp [receiveUpdateFlags]
    | cons f rest ih => cases f <;> simp [receiveUpdateFlags, ih]
  refine ⟨h1 flags, h2 flags, ?_, ?_⟩
  · rintro ⟨hne, hall⟩
    rcases flags with _ | ⟨f, rest⟩
    · exact absurd rfl hne
    · have hmem : BStatus.waiting ∈ f :: rest := by
        have hf := hall f (List.mem_cons_self f rest)
        rw [← hf]
        exact List.mem_cons_self f rest
      cases hb : (receiveUpdateFlags (f :: rest)).2 with
      | false => rfl
      | true => exact absurd ((h2 _).mp hb) (by simp [hmem])
  · intro hall
    constructor
    · exact (h2 flags).mpr (fun hmem => by simpa using hall _ hmem)
    · intro g hg
      rw [h1 flags] at hg
      obtain ⟨f, hf, rfl⟩ := List.mem_map.mp hg
      have hfa := hall f hf
      subst hfa
      rfl

/-- `List.set` then `getD` at the written index. -/
theorem getD_set_self {α : Type} (l : List α) (i : Nat) (a d : α)
    (h : i < l.length) : (l.set i a).getD i d = a := by
  simp [List.getD, List.getElem?_set_self h]

/-- `List.set` then `getD` at a different index. -/
theorem getD_set_other {α : Type} (l : List α) {i j : Nat} (a d : α)
    (h : j ≠ i) : (l.set i a).getD j d = l.getD j d := by
  simp [List.getD, List.getElem?_set_ne (Ne.symm h)]

/-- A `true` read through `getD …  false` is an in-bounds read. -/
theorem lt_length_of_getD_true (l : List Bool) (n : Nat)
    (h : l.getD n false = true) : n < l.length := by
  by_contra hn
  rw [List.getD_eq_default _ _ (Nat.le_of_not_lt hn)] at h
  exact Bool.false_ne_true h

/-- `reapStep` at slot `n` does not change mask or removal flag of any
other slot. -/
theorem reapStep_getD_other (s : State) (n m : Nat) (h : m ≠ n) :
    (reapStep s n).mask.getD m false = s.mask.getD m false ∧
      (reapStep s n).marked_for_removal.getD m false
        = s.marked_for_removal.getD m false := by
  unfold reapStep
  split_ifs <;>
    first
      | exact ⟨rfl, rfl⟩
      | exact ⟨getD_set_other _ _ _ h, getD_set_other _ _ _ h⟩

/-- `reapStep` never increases `max_active_index_`. -/
theorem reapStep_max_le (s : State) (n : Nat) :
    (reapStep s n).max_active_index ≤ s.max_active_index := by
  unfold reapStep
  split_ifs <;> (try dsimp only) <;> omega

/-- After `reapStep` at `n`, slot `n` is no longer both active and
marked. -/
theorem reapStep_not_both (s : State) (n : Nat) :
    ¬((reapStep s n).mask.getD n false = true ∧
        (reapStep s n).marked_for_removal.getD n false = true) := by
  unfold reapStep
  split_ifs with h1 h2 h3 <;> (try dsimp only) <;> intro hc
  · have ha := hc.1
    rw [getD_set_self _ _ _ _ (lt_length_of_getD_true _ _ h1)] at ha
    exact Bool.false_ne_true ha
  · have ha := hc.1
    rw [getD_set_self _ _ _ _ (lt_length_of_getD_true _ _ h1)] at ha
    exact Bool.false_ne_true ha
  · exact h2 hc.2
  · exact h1 hc.1

/-- `reapStep` at a slot that is not both active and marked is the
identity. -/
theorem reapStep_noop (s : State) (n : Nat)
    (h : ¬(s.mask.getD n false = true ∧
            s.marked_for_removal.getD n false = true)) :
    reapStep s n = s := by
  unfold reapStep
  split_ifs with h1 h2 h3
  · exact absurd ⟨h1, h2⟩ h
  · exact absurd ⟨h1, h2⟩ h
  · rfl
  · rfl

/-- `reapGo s k` leaves mask and removal flags above its range alone. -/
theorem reapGo_getD_ge (s : State) (k m : Nat) (h : k ≤ m) :
    (reapGo s k).mask.getD m false = s.mask.getD m false ∧
      (reapGo s k).marked_for_removal.getD m false
        = s.marked_for_removal.getD m false := by
  induction k generalizing s with
  | zero => exact ⟨rfl, rfl⟩
  | succ k ih =>
    have hs := reapStep_getD_other s k m (by omega)
    have hg := ih (reapStep s k) (by omega)
    exact ⟨hg.1.trans hs.1, hg.2.trans hs.2⟩

/-- After `reapGo s k`, no slot below `k` is both active and marked. -/
theorem reapGo_clears (s : State) (k m : Nat) (h : m < k) :
    ¬((reapGo s k).mask.getD m false = true ∧
        (reapGo s k).marked_for_removal.getD m false = true) := by
  induction k generalizing s with
  | zero => omega
  | succ k ih =>
    by_cases hm : m = k
    · subst hm
      show ¬((reapGo (reapStep s m) m).mask.getD m false = true ∧
        (reapGo (reapStep s m) m).marked_for_removal.getD m false = true)
      have hg := reapGo_getD_ge (reapStep s m) m m le_rfl
      rw [hg.1, hg.2]
      exact reapStep_not_both s m
    · exact ih (reapStep s k) (by omega)

/-- `reapGo` over a range with nothing both active and marked is the
identity. -/
theorem reapGo_noop (s : State) (k : Nat)
    (h : ∀ m, m < k → ¬(s.mask.getD m false = true ∧
            s.marked_for_removal.getD m false = true)) :
    reapGo s k = s := by
  induction k generalizing s with
  | zero => rfl
  | succ k ih =>
    show reapGo (reapStep s k) k = s
    rw [reapStep_noop s k (h k (by omega))]
    exact ih s (fun m hm => h m (by omega))

/-- `reapGo` never increases `max_active_index_`. -/
theorem reapGo_max_le (s : State) (k : Nat) :
    (reapGo s k).max_active_index ≤ s.max_active_index := by
  induction k generalizing s with
  | zero => exact le_rfl
  | succ k ih =>
    exact le_trans (ih (reapStep s k)) (reapStep_max_le s k)

/-- C8: `RemoveMarkedParticles` is idempotent — a second consecutive call
with no new marks changes nothing (mask, removal flags, free list,
`num_active_`, `max_active_index_` all equal); equivalently, a call with
no pending (active and marked) slot is a no-op. -/
theorem removeMarkedParticles_idempotent (s : State) :
    removeMarkedParticles (removeMarkedParticles s) = removeMarkedParticles s ∧
      ((∀ m : Nat, ¬(s.mask.getD m false = true ∧
            s.marked_for_removal.getD m false = true)) →
        removeMarkedParticles s = s) := by
  constructor
  · unfold removeMarkedParticles
    apply reapGo_noop
    intro m hm
    apply reapGo_clears
    have hle : (reapGo s (s.max_active_index + 1).toNat).max_active_index + 1
        ≤ s.max_active_index + 1 := by
      have := reapGo_max_le s (s.max_active_index + 1).toNat
      omega
    have := Int.toNat_le_toNat hle
    omega
  · intro h
    unfold removeMarkedParticles
    exact reapGo_noop s _ (fun m _ => h m)

/-- Witness for `removeMarkedParticles_idempotent` on a fresh capacity-2
swarm (which has no pending marks). -/
theorem removeMarkedParticles_idempotent_witness :
    removeMarkedParticles (removeMarkedParticles (init 2))
        = removeMarkedParticles (init 2) ∧
      removeMarkedParticles (init 2) = init 2 :=
  ⟨(removeMarkedParticles_idempotent (init 2)).1,
    (removeMarkedParticles_idempotent (init 2)).2 (by
      rintro m ⟨hc, -⟩
      rcases m with _ | _ | m
      · exact absurd hc (by decide)
      · exact absurd hc (by decide)
      · exact Bool.false_ne_true hc)⟩

/-- The growth loop of `AddEmptyParticles` does not grow (and spends no
fuel) when the free list already covers the request. -/
theorem growToFit_enough (s : State) (num : Int) (fuel : Nat)
    (h : ¬((s.free_indices.length : Int) < num)) :
    growToFit s num fuel = some (s, 0) := by
  cases fuel <;> simp [growToFit, h]

/-- C9: with `f > 0` free slots, `AddEmptyParticles f` performs no growth
(capacity unchanged, growth count 0); `AddEmptyParticles (f+1)` performs
exactly one growth, after which the capacity (= `2 * nmax_pool_`) covers
the request and the allocation succeeds; a request of `n ≤ 0` fails the
`PARTHENON_REQUIRE` precondition. -/
theorem addEmptyParticles_growth_boundary (s : State) (f : Nat)
    (hf : s.free_indices.length = f) (hfpos : 0 < f) (hcap : 0 < s.nmax_pool) :
    (∃ s1 idxs, addEmptyParticlesG s (f : Int) = some (s1, idxs, 0) ∧
        s1.nmax_pool = s.nmax_pool) ∧
    (∃ s2 idxs, addEmptyParticlesG s ((f : Int) + 1) = some (s2, idxs, 1) ∧
        s2.nmax_pool = 2 * s.nmax_pool) ∧
    (∀ n : Int, n ≤ 0 → addEmptyParticlesG s n = none) := by
  refine ⟨?_, ?_, ?_⟩
  · have hnum : ¬((f : Int) ≤ 0) := by exact_mod_cast Nat.not_le.mpr hfpos
    have hcond : ¬((s.free_indices.length : Int) < (f : Int)) := by
      rw [hf]; exact Int.lt_irrefl _
    unfold addEmptyParticlesG
    rw [if_neg hnum, Int.toNat_natCast, growToFit_enough s _ _ hcond]
    exact ⟨_, _, rfl, rfl⟩
  · have hnum : ¬(((f : Int) + 1) ≤ 0) := by omega
    have htn : ((f : Int) + 1).toNat = f + 1 := by omega
    unfold addEmptyParticlesG
    rw [if_neg hnum, htn]
    have hcond1 : ((s.free_indices.length : Int) < (f : Int) + 1) := by
      rw [hf]; omega
    rw [show (f + 1 : Nat) = Nat.succ f from rfl]
    unfold growToFit
    rw [if_pos hcond1]
    unfold increasePoolMax setPoolMax
    rw [if_neg (show ¬(2 * s.nmax_pool ≤ s.nmax_pool) by omega)]
    set s1 : State :=
      { s with
        nmax_pool := 2 * s.nmax_pool,
        free_indices :=
          s.free_indices ++
            (List.range (2 * s.nmax_pool - s.nmax_pool)).map (· + s.nmax_pool),
        mask := s.mask ++ List.replicate (2 * s.nmax_pool - s.nmax_pool) false,
        marked_for_removal :=
          s.marked_for_removal ++ List.replicate (2 * s.nmax_pool - s.nmax_pool) false,
        realVector := s.realVector.map
          (fun v => ⟨v.label, v.data.take s.nmax_pool ++
                      List.replicate (2 * s.nmax_pool - s.nmax_pool) 0⟩),
        intVector := s.intVector.map
          (fun v => ⟨v.label, v.data.take s.nmax_pool ++
                      List.replicate (2 * s.nmax_pool - s.nmax_pool) 0⟩) } with hs1
    have hlen : s1.free_indices.length = f + s.nmax_pool := by
      simp [hs1, hf]
      omega
    have hcond2 : ¬((s1.free_indices.length : Int) < (f : Int) + 1) := by
      rw [hlen]; push_cast; omega
    simp only [growToFit_enough s1 _ f hcond2]
    exact ⟨_, _, rfl, rfl⟩
  · intro n hn
    simp [addEmptyParticlesG, hn]

/-- Witness for `addEmptyParticles_growth_boundary` on a fresh capacity-2
swarm with 2 free slots. -/
theorem addEmptyParticles_growth_boundary_witness :
    (∃ s1 idxs, addEmptyParticlesG (init 2) ((2 : Nat) : Int) = some (s1, idxs, 0) ∧
        s1.nmax_pool = (init 2).nmax_pool) ∧
    (∃ s2 idxs, addEmptyParticlesG (init 2) (((2 : Nat) : Int) + 1) = some (s2, idxs, 1) ∧
        s2.nmax_pool = 2 * (init 2).nmax_pool) ∧
    (∀ n : Int, n ≤ 0 → addEmptyParticlesG (init 2) n = none) :=
  addEmptyParticles_growth_boundary (init 2) 2 (by decide) (by decide) (by decide)

/-- Witness for `receive_flag_sweep_spec`: one still-`waiting` channel
gives `false`; one `arrived` channel gives `true` and ends `completed`. -/
theorem receive_flag_sweep_spec_witness :
    (receiveUpdateFlags [BStatus.waiting]).2 = false ∧
      (receiveUpdateFlags [BStatus.arrived]).2 = true ∧
      ∀ g ∈ (receiveUpdateFlags [BStatus.arrived]).1, g = BStatus.completed := by
  refine ⟨(receive_flag_sweep_spec [BStatus.waiting]).2.2.1 ⟨by simp, by simp⟩, ?_⟩
  have h := (receive_flag_sweep_spec [BStatus.arrived]).2.2.2 (by simp)
  exact ⟨h.1, h.2⟩

/-- Membership in the active-index list. -/
theorem mem_actives {mask : List Bool} {i : Nat} :
    i ∈ actives mask ↔ i < mask.length ∧ mask.getD i false = true := by
  unfold actives
  simp [List.mem_filter, List.mem_range]

/-- `getD` through `replicate` with the same default. -/
theorem getD_replicate_self {α : Type} (k m : Nat) (a : α) :
    (List.replicate k a).getD m a = a := by
  induction k generalizing m with
  | zero => rfl
  | succ k ih =>
    cases m with
    | zero => rfl
    | succ m => exact ih m

/-- An all-false mask has no active indices. -/
theorem actives_replicate_false (n : Nat) :
    actives (List.replicate n false) = [] := by
  unfold actives
  rw [List.filter_eq_nil_iff]
  intro i _
  simp [getD_replicate_self]

/-- Filtering a duplicate-free list by two predicates that differ only at
`i ∈ l` (where the first holds and the second fails) differ by exactly the
element `i`. -/
theorem filter_swap_perm (i : Nat) (p p' : Nat → Bool) (l : List Nat)
    (hl : l.Nodup) (hi : i ∈ l) (hp : p i = true) (hp' : p' i = false)
    (hagree : ∀ j ∈ l, j ≠ i → p' j = p j) :
    (i :: l.filter p').Perm (l.filter p) := by
  induction l with
  | nil => cases hi
  | cons x t ih =>
    rw [List.nodup_cons] at hl
    rcases List.mem_cons.mp hi with rfl | hit
    · rw [List.filter_cons_of_pos hp, List.filter_cons_of_neg (by simp [hp'])]
      have : t.filter p' = t.filter p := by
        apply List.filter_congr
        intro j hj
        exact hagree j (List.mem_cons_of_mem _ hj) (fun hji => hl.1 (hji ▸ hj))
      rw [this]
    · have hax : p' x = p x :=
        hagree x (List.mem_cons_self x t) (fun hxi => hl.1 (hxi ▸ hit))
      have ihh := ih hl.2 hit (fun j hj hji => hagree j (List.mem_cons_of_mem _ hj) hji)
      cases hpx : p x with
      | true =>
        rw [List.filter_cons_of_pos hpx, List.filter_cons_of_pos (hax.trans hpx)]
        exact (List.Perm.swap x i _).trans (ihh.cons x)
      | false =>
        rw [List.filter_cons_of_neg (by simp [hax, hpx]),
          List.filter_cons_of_neg (by simp [hpx])]
        exact ihh

/-- Activating a fresh index adds exactly it to the active set. -/
theorem actives_set_true {mask : List Bool} {i : Nat}
    (h0 : mask.getD i false = false) (h1 : i < mask.length) :
    (actives (mask.set i true)).Perm (i :: actives mask) := by
  have key := filter_swap_perm i (fun j => (mask.set i true).getD j false)
    (fun j => mask.getD j false) (List.range mask.length)
    (List.nodup_range _) (List.mem_range.mpr h1)
    (by simpa using getD_set_self mask i true false h1)
    (by simpa using h0)
    (fun j _ hji => (getD_set_other mask true false hji).symm)
  unfold actives
  rw [List.length_set]
  exact key.symm

/-- Deactivating an active index removes exactly it from the active set. -/
theorem actives_set_false {mask : List Bool} {i : Nat}
    (h : mask.getD i false = true) :
    (i :: actives (mask.set i false)).Perm (actives mask) := by
  have h1 : i < mask.length := lt_length_of_getD_true mask i h
  have key := filter_swap_perm i (fun j => mask.getD j false)
    (fun j => (mask.set i false).getD j false) (List.range mask.length)
    (List.nodup_range _) (List.mem_range.mpr h1)
    (by simpa using h)
    (by simpa using getD_set_self mask i false false h1)
    (fun j _ hji => getD_set_other mask false false hji)
  unfold actives
  rw [List.length_set]
  exact key

/-- The pool invariant holds right after construction. -/
theorem poolInv_init (n : Nat) : PoolInv (init n) := by
  constructor
  · show (List.replicate n false).length = n
    exact List.length_replicate n false
  · show (List.range n ++ actives (List.replicate n false)).Perm (List.range n)
    rw [actives_replicate_false, List.append_nil]

/-- Marking touches only removal flags. -/
theorem poolInv_mark (s : State) (i : Nat) (h : PoolInv s) :
    PoolInv (markForRemoval s i) := h

/-- A successful `Add` leaves the pool fields alone. -/
theorem add_pool_fields {s s' : State} {label : String} {t : MType}
    (h : add s label t = .ok s') :
    s'.nmax_pool = s.nmax_pool ∧ s'.mask = s.mask ∧
      s'.free_indices = s.free_indices := by
  unfold add at h
  split at h
  · exact Except.noConfusion h
  · cases t
    · injection h with h
      subst h
      exact ⟨rfl, rfl, rfl⟩
    · injection h with h
      subst h
      exact ⟨rfl, rfl, rfl⟩
    · exact Except.noConfusion h

/-- Attribute registration preserves the pool invariant. -/
theorem poolInv_addAttr {s s' : State} {label : String} {t : MType}
    (heq : add s label t = .ok s') (h : PoolInv s) : PoolInv s' := by
  obtain ⟨h1, h2, h3⟩ := add_pool_fields heq
  unfold PoolInv
  rw [h1, h2, h3]
  exact h

/-- A successful `Remove` leaves the pool fields alone. -/
theorem remove_pool_fields {s s' : State} {label : String}
    (h : remove s label = .ok s') :
    s'.nmax_pool = s.nmax_pool ∧ s'.mask = s.mask ∧
      s'.free_indices = s.free_indices := by
  simp only [remove] at h
  split at h
  · injection h with h
    subst h
    refine ⟨?_, ?_, ?_⟩ <;> first | rfl | (split_ifs <;> rfl)
  · split at h
    · injection h with h
      subst h
      refine ⟨?_, ?_, ?_⟩ <;> first | rfl | (split_ifs <;> rfl)
    · exact Except.noConfusion h

/-- Attribute removal preserves the pool invariant. -/
theorem poolInv_removeAttr {s s' : State} {label : String}
    (heq : remove s label = .ok s') (h : PoolInv s) : PoolInv s' := by
  obtain ⟨h1, h2, h3⟩ := remove_pool_fields heq
  unfold PoolInv
  rw [h1, h2, h3]
  exact h

/-- One reap iteration preserves the pool invariant: a removed slot moves
from the active set to the front of the free list. -/
theorem poolInv_reapStep (s : State) (n : Nat) (h : PoolInv s) :
    PoolInv (reapStep s n) := by
  unfold reapStep
  split_ifs with h1 h2 h3
  all_goals try exact h
  all_goals {
    constructor
    · show (s.mask.set n false).length = s.nmax_pool
      rw [List.length_set]
      exact h.1
    · show ((n :: s.free_indices) ++ actives (s.mask.set n false)).Perm
        (List.range s.nmax_pool)
      have hperm := actives_set_false h1
      have step1 : ((n :: s.free_indices) ++ actives (s.mask.set n false)).Perm
          (s.free_indices ++ (n :: actives (s.mask.set n false))) :=
        List.perm_middle.symm
      have step2 : (s.free_indices ++ (n :: actives (s.mask.set n false))).Perm
          (s.free_indices ++ actives s.mask) :=
        List.Perm.append_left _ hperm
      exact (step1.trans step2).trans h.2
  }

/-- The reap loop preserves the pool invariant. -/
theorem poolInv_reapGo (s : State) (k : Nat) (h : PoolInv s) :
    PoolInv (reapGo s k) := by
  induction k generalizing s with
  | zero => exact h
  | succ k ih => exact ih (reapStep s k) (poolInv_reapStep s k h)

/-- `RemoveMarkedParticles` preserves the pool invariant. -/
theorem poolInv_removeMarked (s : State) (h : PoolInv s) :
    PoolInv (removeMarkedParticles s) :=
  poolInv_reapGo s _ h

/-- Padding a mask with inactive entries does not change its active set. -/
theorem actives_append_false (mask : List Bool) (k : Nat) :
    actives (mask ++ List.replicate k false) = actives mask := by
  unfold actives
  rw [List.length_append, List.length_replicate, List.range_add, List.filter_append]
  have h1 : (List.range mask.length).filter
        (fun i => (mask ++ List.replicate k false).getD i false)
      = (List.range mask.length).filter (fun i => mask.getD i false) := by
    apply List.filter_congr
    intro j hj
    rw [List.getD_append _ _ _ _ (List.mem_range.mp hj)]
  have h2 : ((List.range k).map (fun x => mask.length + x)).filter
      (fun i => (mask ++ List.replicate k false).getD i false) = [] := by
    rw [List.filter_eq_nil_iff]
    intro a ha
    obtain ⟨x, hx, rfl⟩ := List.mem_map.mp ha
    rw [List.getD_append_right _ _ _ _ (Nat.le_add_right _ _)]
    simp [Nat.add_sub_cancel_left, getD_replicate_self]
  rw [h1, h2, List.append_nil]

/-- `setPoolMax` preserves the pool invariant: the new indices join the
free list and the mask extension is inactive. -/
theorem poolInv_setPoolMax {s s' : State} {nmax : Nat}
    (heq : setPoolMax s nmax = some s') (h : PoolInv s) : PoolInv s' := by
  unfold setPoolMax at heq
  split at heq
  · exact Option.noConfusion heq
  · injection heq with heq
    subst heq
    rename_i hlt
    constructor
    · show (s.mask ++ List.replicate (nmax - s.nmax_pool) false).length = nmax
      rw [List.length_append, List.length_replicate, h.1]
      omega
    · show ((s.free_indices ++
          (List.range (nmax - s.nmax_pool)).map (· + s.nmax_pool)) ++
            actives (s.mask ++ List.replicate (nmax - s.nmax_pool) false)).Perm
          (List.range nmax)
      rw [actives_append_false]
      have hr : List.range nmax
          = List.range s.nmax_pool ++
              (List.range (nmax - s.nmax_pool)).map (fun x => s.nmax_pool + x) := by
        rw [← List.range_add]
        congr 1
        omega
      have hm : (List.range (nmax - s.nmax_pool)).map (· + s.nmax_pool)
          = (List.range (nmax - s.nmax_pool)).map (fun x => s.nmax_pool + x) := by
        apply List.map_congr_left
        intro a _
        omega
      rw [hr, hm]
      have p1 : ((s.free_indices ++
            (List.range (nmax - s.nmax_pool)).map (fun x => s.nmax_pool + x)) ++
              actives s.mask).Perm
          ((s.free_indices ++ actives s.mask) ++
            (List.range (nmax - s.nmax_pool)).map (fun x => s.nmax_pool + x)) := by
        rw [List.append_assoc, List.append_assoc]
        exact List.Perm.append_left _ (List.perm_append_comm)
      exact p1.trans (h.2.append_right _)

/-- The modelled growth step preserves the pool invariant. -/
theorem poolInv_increasePoolMax {s s' : State}
    (heq : increasePoolMax s = some s') (h : PoolInv s) : PoolInv s' :=
  poolInv_setPoolMax heq h

/-- The growth loop preserves the pool invariant and exits only once the
free list covers the request. -/
theorem growToFit_inv {num : Int} : ∀ (fuel : Nat) (s : State) (s1 : State) (g : Nat),
    growToFit s num fuel = some (s1, g) → PoolInv s →
      PoolInv s1 ∧ ¬((s1.free_indices.length : Int) < num) := by
  intro fuel
  induction fuel with
  | zero =>
    intro s s1 g heq h
    unfold growToFit at heq
    split at heq
    · exact Option.noConfusion heq
    · injection heq with heq
      rename_i hc
      injection heq with h1 h2
      subst h1
      exact ⟨h, hc⟩
  | succ fuel ih =>
    intro s s1 g heq h
    unfold growToFit at heq
    split at heq
    · rename_i hc
      split at heq
      · exact Option.noConfusion heq
      · rename_i s2 hm
        split at heq
        · exact Option.noConfusion heq
        · rename_i p1 p2 hg
          injection heq with heq
          injection heq with h1 h2
          subst h1
          exact ih s2 p1 p2 hg (poolInv_increasePoolMax hm h)
    · injection heq with heq
      rename_i hc
      injection heq with h1 h2
      subst h1
      exact ⟨h, hc⟩

/-- Under the pool invariant, free list and active set are duplicate-free
and disjoint. -/
theorem nodup_of_poolInv {s : State} (h : PoolInv s) :
    s.free_indices.Nodup ∧ (actives s.mask).Nodup ∧
      s.free_indices.Disjoint (actives s.mask) := by
  have := (h.2.symm.nodup (List.nodup_range _))
  exact List.nodup_append.mp this

/-- Free indices lie below the capacity. -/
theorem mem_free_lt {s : State} (h : PoolInv s) {i : Nat}
    (hi : i ∈ s.free_indices) : i < s.nmax_pool := by
  have : i ∈ List.range s.nmax_pool :=
    h.2.mem_iff.mp (List.mem_append.mpr (Or.inl hi))
  exact List.mem_range.mp this

/-- Free indices are unmasked. -/
theorem mem_free_unmasked {s : State} (h : PoolInv s) {i : Nat}
    (hi : i ∈ s.free_indices) : s.mask.getD i false = false := by
  cases hb : s.mask.getD i false with
  | false => rfl
  | true =>
    have hia : i ∈ actives s.mask :=
      mem_actives.mpr ⟨lt_length_of_getD_true _ _ hb, hb⟩
    exact absurd hia ((nodup_of_poolInv h).2.2 hi)

/-- Activating a duplicate-free batch of fresh indices adds exactly that
batch to the active set. -/
theorem actives_foldl_set_true :
    ∀ (T : List Nat) (mask : List Bool), T.Nodup →
    (∀ i ∈ T, i < mask.length ∧ mask.getD i false = false) →
    (actives (T.foldl (fun m i => m.set i true) mask)).Perm (T ++ actives mask) ∧
      (T.foldl (fun m i => m.set i true) mask).length = mask.length := by
  intro T
  induction T with
  | nil => exact fun mask _ _ => ⟨List.Perm.refl _, rfl⟩
  | cons i T ihT =>
    intro mask hnd hcond
    rw [List.nodup_cons] at hnd
    have hci := hcond i (List.mem_cons_self i T)
    have hstep := actives_set_true hci.2 hci.1
    have hcond' : ∀ j ∈ T, j < (mask.set i true).length ∧
        (mask.set i true).getD j false = false := by
      intro j hj
      rw [List.length_set, getD_set_other mask true false
        (fun hji => hnd.1 (by rw [← hji]; exact hj))]
      exact hcond j (List.mem_cons_of_mem _ hj)
    obtain ⟨ihp, ihl⟩ := ihT (mask.set i true) hnd.2 hcond'
    constructor
    · show (actives (T.foldl (fun m i => m.set i true) (mask.set i true))).Perm
        ((i :: T) ++ actives mask)
      have p1 : (T ++ actives (mask.set i true)).Perm (T ++ (i :: actives mask)) :=
        List.Perm.append_left _ hstep
      have p2 : (T ++ (i :: actives mask)).Perm (i :: (T ++ actives mask)) :=
        List.perm_middle
      exact ihp.trans (p1.trans p2)
    · rw [List.foldl_cons, ihl, List.length_set]

/-- `AddEmptyParticles` preserves the pool invariant: the taken indices
move from the free list to the active set. -/
theorem poolInv_addEmpty {s s' : State} {num : Int}
    (heq : addEmptyParticles s num = some s') (h : PoolInv s) : PoolInv s' := by
  unfold addEmptyParticles addEmptyParticlesG at heq
  split at heq
  · exact Option.noConfusion heq
  · split at heq
    · exact Option.noConfusion heq
    · rename_i s1 g hg
      simp only [Option.map_some] at heq
      injection heq with heq
      obtain ⟨h1, hfree⟩ := growToFit_inv _ s s1 g hg h
      -- the taken indices
      set T := s1.free_indices.take num.toNat with hT
      have hndfree := (nodup_of_poolInv h1).1
      have hndT : T.Nodup := hndfree.sublist (List.take_sublist _ _)
      have hsub : ∀ i ∈ T, i ∈ s1.free_indices := fun i hi => List.take_subset _ _ hi
      have hcond : ∀ i ∈ T, i < s1.mask.length ∧ s1.mask.getD i false = false := by
        intro i hi
        refine ⟨?_, mem_free_unmasked h1 (hsub i hi)⟩
        rw [h1.1]
        exact mem_free_lt h1 (hsub i hi)
      obtain ⟨hperm, hlen⟩ := actives_foldl_set_true T s1.mask hndT hcond
      subst heq
      constructor
      · exact hlen.trans h1.1
      · show ((s1.free_indices.drop num.toNat) ++
            actives (T.foldl (fun m i => m.set i true) s1.mask)).Perm
          (List.range s1.nmax_pool)
        have p1 : ((s1.free_indices.drop num.toNat) ++
            actives (T.foldl (fun m i => m.set i true) s1.mask)).Perm
            ((s1.free_indices.drop num.toNat) ++ (T ++ actives s1.mask)) :=
          List.Perm.append_left _ hperm
        have p2 : ((s1.free_indices.drop num.toNat) ++ (T ++ actives s1.mask)).Perm
            ((T ++ s1.free_indices.drop num.toNat) ++ actives s1.mask) := by
          rw [← List.append_assoc]
          exact List.Perm.append_right _ List.perm_append_comm
        have p3 : (T ++ s1.free_indices.drop num.toNat) = s1.free_indices := by
          rw [hT]
          exact List.take_append_drop _ _
        rw [p3] at p2
        exact (p1.trans p2).trans h1.2

/-- The downward active-slot search returns an active slot at or below its
start. -/
theorem findActiveDownNat_spec (mask : List Bool) :
    ∀ (n i : Nat), findActiveDownNat mask n = some i →
      mask.getD i false = true ∧ i ≤ n := by
  intro n
  induction n with
  | zero =>
    intro i h
    unfold findActiveDownNat at h
    split at h
    · injection h with h
      subst h
      exact ⟨by assumption, le_rfl⟩
    · exact Option.noConfusion h
  | succ n ih =>
    intro i h
    unfold findActiveDownNat at h
    split at h
    · injection h with h
      subst h
      exact ⟨by assumption, le_rfl⟩
    · obtain ⟨h1, h2⟩ := ih i h
      exact ⟨h1, Nat.le_succ_of_le h2⟩

/-- `findActiveDown` on a machine-int index: same specification. -/
theorem findActiveDown_spec {mask : List Bool} {index : Int} {i : Nat}
    (h : findActiveDown mask index = some i) :
    mask.getD i false = true ∧ (i : Int) ≤ index := by
  unfold findActiveDown at h
  split at h
  · exact Option.noConfusion h
  · rename_i hneg
    obtain ⟨h1, h2⟩ := findActiveDownNat_spec mask index.toNat i h
    refine ⟨h1, ?_⟩
    omega

/-- The move-collection loop of `Defrag`: the destinations are popped off
the front of the free list in order, every source is an active slot at or
below the start index, and the sources are pairwise distinct. -/
theorem defragCollect_spec (mask : List Bool) (na : Int) :
    ∀ (fuel : Nat) (index : Int) (free : List Nat),
      free = (defragCollect mask na fuel index free).1.map (fun p => p.2) ++
          (defragCollect mask na fuel index free).2 ∧
      (∀ p ∈ (defragCollect mask na fuel index free).1,
          mask.getD p.1 false = true) ∧
      (∀ p ∈ (defragCollect mask na fuel index free).1, (p.1 : Int) ≤ index) ∧
      ((defragCollect mask na fuel index free).1.map (fun p => p.1)).Nodup := by
  intro fuel
  induction fuel with
  | zero => exact fun index free => ⟨rfl, by simp [defragCollect], by simp [defragCollect], by simp [defragCollect]⟩
  | succ fuel ih =>
    intro index free
    unfold defragCollect
    cases hf : findActiveDown mask index with
    | none => exact ⟨rfl, by simp, by simp, by simp⟩
    | some i =>
      obtain ⟨hmask, hle⟩ := findActiveDown_spec hf
      dsimp only
      split_ifs with hna
      · exact ⟨rfl, by simp, by simp, by simp⟩
      · cases free with
        | nil => exact ⟨rfl, by simp, by simp, by simp⟩
        | cons t rest =>
          obtain ⟨ih1, ih2, ih3, ih4⟩ := ih ((i : Int) - 1) rest
          dsimp only
          refine ⟨?_, ?_, ?_, ?_⟩
          · simpa using ih1
          · intro p hp
            rcases List.mem_cons.mp hp with rfl | hp
            · exact hmask
            · exact ih2 p hp
          · intro p hp
            rcases List.mem_cons.mp hp with rfl | hp
            · exact hle
            · exact le_trans (ih3 p hp) (by omega)
          · rw [List.map_cons, List.nodup_cons]
            refine ⟨?_, ih4⟩
            intro hmem
            obtain ⟨p, hp, hpe⟩ := List.mem_map.mp hmem
            have := ih3 p hp
            omega

/-- `list::merge` holds exactly the elements of both inputs. -/
theorem mergeAsc_perm : ∀ (a b : List Nat), (mergeAsc a b).Perm (a ++ b)
  | [], b => by simp [mergeAsc]
  | x :: xs, [] => by simp [mergeAsc]
  | x :: xs, y :: ys => by
    unfold mergeAsc
    split_ifs with h
    · exact (mergeAsc_perm xs (y :: ys)).cons x
    · exact ((mergeAsc_perm (x :: xs) ys).cons y).trans List.perm_middle.symm
termination_by a b => a.length + b.length

/-- `list::sort` is a permutation. -/
theorem sortAsc_perm (l : List Nat) : (sortAsc l).Perm l :=
  List.perm_insertionSort _ l

/-- The `DefragMask` kernel swaps the sources out of and the destinations
into the active set (counted with the pairs, as a permutation), provided
sources are active, destinations are free, and all slots are pairwise
distinct. -/
theorem applyMovesMask_spec :
    ∀ (pairs : List (Nat × Nat)) (mask : List Bool),
    (∀ p ∈ pairs, mask.getD p.1 false = true) →
    (∀ p ∈ pairs, p.2 < mask.length ∧ mask.getD p.2 false = false) →
    ((pairs.map (fun p => p.1)).Nodup) →
    ((pairs.map (fun p => p.2)).Nodup) →
    (∀ p ∈ pairs, ∀ q ∈ pairs, p.1 ≠ q.2) →
    (actives (applyMovesMask pairs mask) ++ pairs.map (fun p => p.1)).Perm
        (actives mask ++ pairs.map (fun p => p.2)) ∧
      (applyMovesMask pairs mask).length = mask.length := by
  intro pairs
  induction pairs with
  | nil => exact fun mask _ _ _ _ _ => ⟨by simp [applyMovesMask], rfl⟩
  | cons hd rest ih =>
    obtain ⟨f, t⟩ := hd
    intro mask hfrom hto hndf hndt hdisj
    have hf : mask.getD f false = true := hfrom (f, t) (List.mem_cons_self _ _)
    have ht := hto (f, t) (List.mem_cons_self _ _)
    have hft : f ≠ t := by
      intro he
      rw [he] at hf
      rw [ht.2] at hf
      exact Bool.false_ne_true hf
    rw [List.map_cons, List.nodup_cons] at hndf
    rw [List.map_cons, List.nodup_cons] at hndt
    have hstep : applyMovesMask ((f, t) :: rest) mask
        = applyMovesMask rest ((mask.set t true).set f false) := by
      show applyMovesMask rest ((mask.set t (mask.getD f false)).set f false) = _
      rw [hf]
    have hlen1 : ((mask.set t true).set f false).length = mask.length := by
      rw [List.length_set, List.length_set]
    have hA1 : (f :: actives ((mask.set t true).set f false)).Perm
        (t :: actives mask) := by
      have e1 : (mask.set t true).getD f false = true := by
        rw [getD_set_other mask true false hft]
        exact hf
      have e2 := actives_set_false e1
      have e3 := actives_set_true ht.2 ht.1
      exact e2.trans e3
    have hfrom' : ∀ p ∈ rest, ((mask.set t true).set f false).getD p.1 false = true := by
      intro p hp
      have hp1f : p.1 ≠ f := by
        intro he
        exact hndf.1 (List.mem_map.mpr ⟨p, hp, he⟩)
      have hp1t : p.1 ≠ t :=
        hdisj p (List.mem_cons_of_mem _ hp) (f, t) (List.mem_cons_self _ _)
      rw [getD_set_other _ false false hp1f, getD_set_other mask true false hp1t]
      exact hfrom p (List.mem_cons_of_mem _ hp)
    have hto' : ∀ p ∈ rest, p.2 < ((mask.set t true).set f false).length ∧
        ((mask.set t true).set f false).getD p.2 false = false := by
      intro p hp
      have hp2f : p.2 ≠ f :=
        Ne.symm (hdisj (f, t) (List.mem_cons_self _ _) p (List.mem_cons_of_mem _ hp))
      have hp2t : p.2 ≠ t := by
        intro he
        exact hndt.1 (List.mem_map.mpr ⟨p, hp, he⟩)
      rw [hlen1, getD_set_other _ false false hp2f, getD_set_other mask true false hp2t]
      exact hto p (List.mem_cons_of_mem _ hp)
    have hdisj' : ∀ p ∈ rest, ∀ q ∈ rest, p.1 ≠ q.2 := fun p hp q hq =>
      hdisj p (List.mem_cons_of_mem _ hp) q (List.mem_cons_of_mem _ hq)
    obtain ⟨ihp, ihl⟩ :=
      ih ((mask.set t true).set f false) hfrom' hto' hndf.2 hndt.2 hdisj'
    constructor
    · rw [List.map_cons, List.map_cons, hstep]
      exact ((List.perm_middle.trans (ihp.cons f)).trans
        (hA1.append_right _)).trans List.perm_middle.symm
    · rw [hstep, ihl, hlen1]

/-- Core of the `Defrag` preservation: whatever prefix of moves the
collection loop produced, moving the sources out of and the destinations
into the active set while moving the sources onto (and the destinations
off) the free list keeps the disjoint-union property. -/
theorem defrag_core_inv (s : State) (h : PoolInv s) (fuel : Nat) (idx : Int) :
    ((mergeAsc
        (sortAsc (defragCollect s.mask s.num_active fuel idx s.free_indices).2)
        (sortAsc ((defragCollect s.mask s.num_active fuel idx s.free_indices).1.map
          (fun p => p.1)))) ++
      actives (applyMovesMask
        (defragCollect s.mask s.num_active fuel idx s.free_indices).1 s.mask)).Perm
        (List.range s.nmax_pool) ∧
    (applyMovesMask
      (defragCollect s.mask s.num_active fuel idx s.free_indices).1 s.mask).length
        = s.nmax_pool := by
  obtain ⟨hsplit, hfrom, hle, hndf⟩ :=
    defragCollect_spec s.mask s.num_active fuel idx s.free_indices
  set pr := defragCollect s.mask s.num_active fuel idx s.free_indices with hpr
  obtain ⟨hndfree, hndact, hdisjFA⟩ := nodup_of_poolInv h
  have hndT : (pr.1.map (fun p => p.2)).Nodup := by
    rw [hsplit] at hndfree
    exact (List.nodup_append.mp hndfree).1
  have hTmem : ∀ i ∈ pr.1.map (fun p => p.2), i ∈ s.free_indices := by
    intro i hi
    rw [hsplit]
    exact List.mem_append.mpr (Or.inl hi)
  have hto : ∀ p ∈ pr.1, p.2 < s.mask.length ∧ s.mask.getD p.2 false = false := by
    intro p hp
    have hfree := hTmem _ (List.mem_map.mpr ⟨p, hp, rfl⟩)
    refine ⟨?_, mem_free_unmasked h hfree⟩
    rw [h.1]
    exact mem_free_lt h hfree
  have hdisj : ∀ p ∈ pr.1, ∀ q ∈ pr.1, p.1 ≠ q.2 := by
    intro p hp q hq he
    have h1 := hfrom p hp
    have h2 := (hto q hq).2
    rw [he, h2] at h1
    exact Bool.false_ne_true h1
  obtain ⟨hperm, hlen⟩ := applyMovesMask_spec pr.1 s.mask hfrom hto hndf hndT hdisj
  refine ⟨?_, hlen.trans h.1⟩
  have pfree : (mergeAsc (sortAsc pr.2) (sortAsc (pr.1.map (fun p => p.1)))).Perm
      (pr.2 ++ pr.1.map (fun p => p.1)) :=
    (mergeAsc_perm _ _).trans ((sortAsc_perm _).append (sortAsc_perm _))
  have c1 : ((mergeAsc (sortAsc pr.2) (sortAsc (pr.1.map (fun p => p.1)))) ++
      actives (applyMovesMask pr.1 s.mask)).Perm
      ((pr.2 ++ pr.1.map (fun p => p.1)) ++ actives (applyMovesMask pr.1 s.mask)) :=
    pfree.append_right _
  have c2 : ((pr.2 ++ pr.1.map (fun p => p.1)) ++
      actives (applyMovesMask pr.1 s.mask)).Perm
      (pr.2 ++ (actives (applyMovesMask pr.1 s.mask) ++ pr.1.map (fun p => p.1))) := by
    rw [List.append_assoc]
    exact List.Perm.append_left _ List.perm_append_comm
  have c3 : (pr.2 ++ (actives (applyMovesMask pr.1 s.mask) ++
      pr.1.map (fun p => p.1))).Perm
      (pr.2 ++ (actives s.mask ++ pr.1.map (fun p => p.2))) :=
    List.Perm.append_left _ hperm
  have c4 : (pr.2 ++ (actives s.mask ++ pr.1.map (fun p => p.2))).Perm
      ((pr.1.map (fun p => p.2) ++ pr.2) ++ actives s.mask) := by
    have d1 : (pr.2 ++ (actives s.mask ++ pr.1.map (fun p => p.2))).Perm
        ((pr.2 ++ actives s.mask) ++ pr.1.map (fun p => p.2)) := by
      rw [List.append_assoc]
    have d2 : ((pr.2 ++ actives s.mask) ++ pr.1.map (fun p => p.2)).Perm
        (pr.1.map (fun p => p.2) ++ (pr.2 ++ actives s.mask)) :=
      List.perm_append_comm
    have d3 : (pr.1.map (fun p => p.2) ++ (pr.2 ++ actives s.mask)).Perm
        ((pr.1.map (fun p => p.2) ++ pr.2) ++ actives s.mask) := by
      rw [List.append_assoc]
    exact (d1.trans d2).trans d3
  have c5 : ((pr.1.map (fun p => p.2) ++ pr.2) ++ actives s.mask).Perm
      (List.range s.nmax_pool) := by
    rw [← hsplit]
    exact h.2
  exact (((c1.trans c2).trans c3).trans c4).trans c5

/-- `Defrag` preserves the pool invariant (even in the states where it
fails to compact). -/
theorem poolInv_defrag (s : State) (h : PoolInv s) : PoolInv (defrag s) := by
  unfold defrag
  split_ifs with h0
  · exact h
  · exact ⟨(defrag_core_inv s h _ _).2,
      (defrag_core_inv s h _ _).1⟩

/-- Every state reachable through the public pool operations satisfies the
pool invariant. -/
theorem poolInv_of_reachable {s : State} (h : Reachable s) : PoolInv s := by
  induction h with
  | ctor n => exact poolInv_init n
  | addEmpty num _ heq ih => exact poolInv_addEmpty heq ih
  | mark i _ ih => exact poolInv_mark _ i ih
  | reap _ ih => exact poolInv_removeMarked _ ih
  | compact _ ih => exact poolInv_defrag _ ih
  | grow n _ heq ih => exact poolInv_setPoolMax heq ih
  | addAttr label t _ heq ih => exact poolInv_addAttr heq ih
  | removeAttr label _ heq ih => exact poolInv_removeAttr heq ih

/-- C3: in every reachable pool state — i.e. after construction and after
every public pool operation (`AddEmptyParticles`, mark,
`RemoveMarkedParticles`, `Defrag`, `setPoolMax`, attribute add/remove) —
the free-list indices and the active (masked) indices are disjoint, their
union is exactly `[0, capacity)`, and so |free| + |active| = capacity. -/
theorem free_active_partition (s : State) (h : Reachable s) :
    s.free_indices.toFinset ∩ (actives s.mask).toFinset = ∅ ∧
      s.free_indices.toFinset ∪ (actives s.mask).toFinset
        = Finset.range s.nmax_pool ∧
      s.free_indices.length + (actives s.mask).length = s.nmax_pool := by
  have hinv := poolInv_of_reachable h
  have hperm := hinv.2
  have hnd : (s.free_indices ++ actives s.mask).Nodup :=
    hperm.symm.nodup (List.nodup_range _)
  obtain ⟨hnd1, hnd2, hdisj⟩ := List.nodup_append.mp hnd
  refine ⟨?_, ?_, ?_⟩
  · apply Finset.eq_empty_of_forall_not_mem
    intro i hi
    rw [Finset.mem_inter, List.mem_toFinset, List.mem_toFinset] at hi
    exact hdisj hi.1 hi.2
  · have := List.toFinset_eq_of_perm _ _ hperm
    rw [List.toFinset_append] at this
    rw [this]
    ext i
    simp [List.mem_range, Finset.mem_range]
  · have := hperm.length_eq
    rw [List.length_append, List.length_range] at this
    exact this

/-- Witness for `free_active_partition` at a freshly constructed
capacity-3 swarm. -/
theorem free_active_partition_witness :
    (init 3).free_indices.toFinset ∩ (actives (init 3).mask).toFinset = ∅ ∧
      (init 3).free_indices.toFinset ∪ (actives (init 3).mask).toFinset
        = Finset.range (init 3).nmax_pool ∧
      (init 3).free_indices.length + (actives (init 3).mask).length
        = (init 3).nmax_pool :=
  free_active_partition (init 3) (Reachable.ctor 3)

end Swarm
